import Mathlib

/-!
Verification development for the `go-common` repository: an in-process,
generic key-value cache with per-entry TTL expiration and singleflight
deduplication of concurrent misses (`framework/cache` + `framework/cache/localcache`),
plus a structured leveled logger (`framework/logger`).

The cache interface and the `ErrCacheMiss` sentinel come from the `cache`
package source; the `localcache` implementation itself is not among the
provided sources (only its tests and the interface are), so the store and
façade operations below are modelled from the spec (sections 4.1-4.3),
as marked on each definition. The logger definitions are embedded from
`framework/logger/logger.go`.

Time is modelled as a `Nat` timestamp passed explicitly; durations (TTLs)
are `Nat` (the claims under verification only involve positive TTLs, and
the spec leaves `ttl <= 0` explicitly open).
-/

namespace GoCommon

/-- Go `error` values as used by this repository, compared by identity as Go's
`errors.Is` does for sentinel errors created with `errors.New`. `cacheMiss` is
the identity of the `ErrCacheMiss` sentinel; `custom n` models any other
distinct error value (e.g. one returned by a caller-supplied initializer),
with `n` its identity. -/
inductive GoErr where
  | cacheMiss : GoErr
  | custom : Nat → GoErr
deriving DecidableEq, Repr

/-- `var ErrCacheMiss = errors.New("cache miss")` from the `cache` package. -/
def ErrCacheMiss : GoErr := GoErr.cacheMiss

instance {ε α : Type} [DecidableEq ε] [DecidableEq α] : DecidableEq (Except ε α) := fun x y =>
  match x, y with
  | Except.ok a, Except.ok b =>
    if h : a = b then isTrue (by rw [h]) else isFalse (by intro hc; injection hc; contradiction)
  | Except.error a, Except.error b =>
    if h : a = b then isTrue (by rw [h]) else isFalse (by intro hc; injection hc; contradiction)
  | Except.ok _, Except.error _ => isFalse (by intro hc; cases hc)
  | Except.error _, Except.ok _ => isFalse (by intro hc; cases hc)

namespace LocalCache

/-- An entry of the Entry Store: `{value: T, expiresAt: timestamp}` (spec §3). -/
structure Entry (T : Type) where
  value : T
  expiresAt : Nat
deriving DecidableEq, Repr

/-- The Entry Store: a mapping from string key to entry (spec §4.1),
modelled as an association list. -/
abbrev Store (T : Type) := List (String × Entry T)

/-- Raw association-list lookup of the entry physically stored for `key`
(ignoring expiry). -/
def findEntry {T : Type} : Store T → String → Option (Entry T)
  | [], _ => none
  | p :: rest, key => if p.1 = key then some p.2 else findEntry rest key

/-- Remove every binding of `key` from the store (map deletion). -/
def eraseKey {T : Type} : Store T → String → Store T
  | [], _ => []
  | p :: rest, key => if p.1 = key then eraseKey rest key else p :: eraseKey rest key

/-- Modelled from the spec: `put(key, value, ttl)` of the Entry Store (§4.1)
 — the `localcache` implementation is not among the provided sources. Stores
`value` with `expiresAt = now + ttl`, overwriting any prior entry
unconditionally. -/
def put {T : Type} (s : Store T) (key : String) (v : T) (ttl : Nat) (now : Nat) : Store T :=
  (key, ⟨v, now + ttl⟩) :: eraseKey s key

/-- Modelled from the spec: `lookup(key) -> (value, found)` of the Entry Store
(§4.1) — the `localcache` implementation is not among the provided sources.
Returns the entry if present and `expiresAt` is strictly after `now`;
otherwise reports not-found, whether the key is absent or merely expired. -/
def lookup {T : Type} (s : Store T) (key : String) (now : Nat) : Option T :=
  match findEntry s key with
  | some e => if now < e.expiresAt then some e.value else none
  | none => none

/-- The result of running a caller-supplied `Initializer[T]`
(`func() (T, time.Duration, error)` from the `cache` package): either a value
with a TTL, or an error. An initializer is modelled by its result. -/
abbrev InitResult (T : Type) := Except GoErr (T × Nat)

/-- Modelled from the spec: the façade `Get(key, initializer?)` (§4.2), in
its sequential form — the `localcache` implementation is not among the
provided sources. On a hit return the value with no side effect; on a miss
with no initializer fail with `ErrCacheMiss`; on a miss with an initializer
return its outcome, writing the entry only on success (no negative caching).
Returns the Go `(T, error)` result (as an `Except`) with the post-state. -/
def get {T : Type} (s : Store T) (key : String) (init : Option (InitResult T)) (now : Nat) :
    Except GoErr T × Store T :=
  match lookup s key now with
  | some v => (Except.ok v, s)
  | none =>
    match init with
    | none => (Except.error ErrCacheMiss, s)
    | some (Except.error e) => (Except.error e, s)
    | some (Except.ok (v, ttl)) => (Except.ok v, put s key v ttl now)

/-- Modelled from the spec: the façade `Set(key, value, ttl)` (§4.2):
unconditional write via Entry Store `put` — the `localcache` implementation
is not among the provided sources. -/
def set {T : Type} (s : Store T) (key : String) (v : T) (ttl : Nat) (now : Nat) : Store T :=
  put s key v ttl now

/-- Modelled from the spec: the façade `Invalidate(key) -> error` (§4.2):
removes the entry, always succeeds (error component `none`) — the
`localcache` implementation is not among the provided sources. -/
def invalidate {T : Type} (s : Store T) (key : String) : Option GoErr × Store T :=
  (none, eraseKey s key)

/-- Modelled from the spec: the façade `InvalidateAll() -> error` (§4.2):
clears the entire store, always succeeds (error component `none`) — the
`localcache` implementation is not among the provided sources. -/
def invalidateAll {T : Type} (_s : Store T) : Option GoErr × Store T :=
  (none, [])

/-- The stores reachable through the public façade, starting from the empty
store of a freshly created cache (`localcache.New`). Each façade operation
may be performed at any timestamp with any arguments. -/
inductive Reachable {T : Type} : Store T → Prop where
  | empty : Reachable []
  | set (s : Store T) (key : String) (v : T) (ttl now : Nat) :
      Reachable s → Reachable (set s key v ttl now)
  | get (s : Store T) (key : String) (init : Option (InitResult T)) (now : Nat) :
      Reachable s → Reachable (get s key init now).2
  | invalidate (s : Store T) (key : String) :
      Reachable s → Reachable (invalidate s key).2
  | invalidateAll (s : Store T) :
      Reachable s → Reachable (invalidateAll s).2

/-- The store holds at most one entry per key: its keys are pairwise
distinct. -/
def keysNodup {T : Type} (s : Store T) : Prop :=
  (s.map Prod.fst).Nodup

namespace Singleflight

/-!
Modelled from the spec: the Singleflight Coordinator protocol of §4.3, as an
interleaving transition system over the callers of one contended key — the
`localcache` implementation is not among the provided sources. Each of the
`N` concurrent `Get(key, init)` callers is in one of the phases below;
callers are anonymous, so the population is a multiset of phases. In one
atomic step a caller either hits the store, becomes the leader (the spec's
Idle → Computing transition, taken by "the first caller to arrive" at a
miss), becomes a follower (arriving while Computing), runs the initializer
as leader (writing the store on success, publishing the outcome and clearing
the in-flight record, per the spec's Computing → Done transitions), or, as a
follower, picks up the published outcome.
-/

/-- The phase of one caller of `Get(key, init)`. -/
inductive Phase (T : Type) where
  | start
  | leader
  | follower
  | done (r : Except GoErr T)
deriving DecidableEq, Repr

/-- The contended key, the shared initializer (modelled by its deterministic
result: all callers share one initializer), and the timestamp of the race. -/
structure Config (T : Type) where
  key : String
  res : InitResult T
  now : Nat
deriving DecidableEq, Repr

/-- Global state of the race: the phases of all callers, whether an
in-flight coordination record exists for the key (`flight`), the outcome
published by a completed leader, the Entry Store, and how many times the
initializer has been invoked. -/
structure SFState (T : Type) where
  callers : Multiset (Phase T)
  flight : Bool
  published : Option (Except GoErr T)
  store : Store T
  initCount : Nat
deriving DecidableEq

/-- One atomic step of the coordination protocol of spec §4.3. -/
inductive Step {T : Type} [DecidableEq T] (cfg : Config T) : SFState T → SFState T → Prop where
  | hit (s : SFState T) (v : T) :
      Phase.start ∈ s.callers →
      lookup s.store cfg.key cfg.now = some v →
      Step cfg s { s with callers := Phase.done (Except.ok v) ::ₘ s.callers.erase Phase.start }
  | lead (s : SFState T) :
      Phase.start ∈ s.callers →
      lookup s.store cfg.key cfg.now = none →
      s.flight = false →
      Step cfg s { s with callers := Phase.leader ::ₘ s.callers.erase Phase.start,
                          flight := true }
  | follow (s : SFState T) :
      Phase.start ∈ s.callers →
      lookup s.store cfg.key cfg.now = none →
      s.flight = true →
      Step cfg s { s with callers := Phase.follower ::ₘ s.callers.erase Phase.start }
  | runOk (s : SFState T) (v : T) (ttl : Nat) :
      Phase.leader ∈ s.callers →
      cfg.res = Except.ok (v, ttl) →
      Step cfg s { callers := Phase.done (Except.ok v) ::ₘ s.callers.erase Phase.leader,
                   flight := false,
                   published := some (Except.ok v),
                   store := put s.store cfg.key v ttl cfg.now,
                   initCount := s.initCount + 1 }
  | runErr (s : SFState T) (e : GoErr) :
      Phase.leader ∈ s.callers →
      cfg.res = Except.error e →
      Step cfg s { s with callers := Phase.done (Except.error e) ::ₘ s.callers.erase Phase.leader,
                          flight := false,
                          published := some (Except.error e),
                          initCount := s.initCount + 1 }
  | waitDone (s : SFState T) (r : Except GoErr T) :
      Phase.follower ∈ s.callers →
      s.published = some r →
      Step cfg s { s with callers := Phase.done r ::ₘ s.callers.erase Phase.follower }

/-- Any interleaving of protocol steps. -/
def Reaches {T : Type} [DecidableEq T] (cfg : Config T) : SFState T → SFState T → Prop :=
  Relation.ReflTransGen (Step cfg)

/-- The initial state of the race: `n` callers about to call `Get`, no
in-flight record, nothing published, initializer never invoked. -/
def initState {T : Type} (n : Nat) (store0 : Store T) : SFState T :=
  { callers := Multiset.replicate n Phase.start,
    flight := false,
    published := none,
    store := store0,
    initCount := 0 }

/-- Protocol invariant for a race whose shared initializer succeeds with
value `v` and a positive TTL, on an initially-uncached key: the system is
either before any flight (A), during the only flight (B), or after it (C). -/
def Inv {T : Type} [DecidableEq T] (cfg : Config T) (v : T) (n : Nat) (s : SFState T) : Prop :=
  Multiset.card s.callers = n ∧
  ((s.flight = false ∧ s.published = none ∧ s.initCount = 0 ∧
      lookup s.store cfg.key cfg.now = none ∧
      ∀ p ∈ s.callers, p = Phase.start) ∨
   (s.flight = true ∧ s.published = none ∧ s.initCount = 0 ∧
      lookup s.store cfg.key cfg.now = none ∧
      Multiset.count Phase.leader s.callers = 1 ∧
      ∀ p ∈ s.callers, p = Phase.start ∨ p = Phase.leader ∨ p = Phase.follower) ∨
   (s.flight = false ∧ s.published = some (Except.ok v) ∧ s.initCount = 1 ∧
      lookup s.store cfg.key cfg.now = some v ∧
      ∀ p ∈ s.callers, p = Phase.start ∨ p = Phase.follower ∨ p = Phase.done (Except.ok v)))

end Singleflight

end LocalCache

namespace Logger

/-- A field value (`interface{}` in `Fields`): modelled by the kinds of
values the repository stores in fields (strings, integers, error values). -/
inductive FVal where
  | str : String → FVal
  | int : Int → FVal
  | err : GoErr → FVal
deriving DecidableEq, Repr

/-- `type Fields map[string]interface{}`: the contents of one Go map,
modelled as an association list with map semantics (assignment overwrites). -/
abbrev FieldsMap := List (String × FVal)

/-- Go map read `m[k]`. -/
def mapGet : FieldsMap → String → Option FVal
  | [], _ => none
  | p :: rest, k => if p.1 = k then some p.2 else mapGet rest k

/-- Remove every binding of `k`. -/
def mapErase : FieldsMap → String → FieldsMap
  | [], _ => []
  | p :: rest, k => if p.1 = k then mapErase rest k else p :: mapErase rest k

/-- Go map assignment `m[k] = v`: overwrites any prior binding of `k`. -/
def mapSet (m : FieldsMap) (k : String) (v : FVal) : FieldsMap :=
  (k, v) :: mapErase m k

/-- `for k, v := range fs { m[k] = v }`: assign every binding of `fs`
into `m`. -/
def mapSetAll (m : FieldsMap) (fs : FieldsMap) : FieldsMap :=
  fs.foldl (fun acc p => mapSet acc p.1 p.2) m

/-- Go maps are reference values; the heap holds the contents of every
allocated `Fields` map, addressed by index. -/
structure Heap where
  maps : List FieldsMap
deriving DecidableEq, Repr

/-- The `logger` struct of `logger.go`: `baselogger` (an external `logrus`
pointer, opaque here), `logLevel`, and `fields` — a reference to a `Fields`
map on the heap. -/
structure LoggerObj where
  baseRef : Nat
  logLevel : Nat
  fieldsRef : Nat
deriving DecidableEq, Repr

/-- `func (l *logger) clone() *logger`: copies the struct, then deep-copies
the fields map into a freshly allocated map, so the clone's `fields` no
longer aliases the receiver's. -/
def clone (h : Heap) (l : LoggerObj) : Heap × LoggerObj :=
  (⟨h.maps ++ [h.maps.getD l.fieldsRef []]⟩, { l with fieldsRef := h.maps.length })

/-- `func (l *logger) WithFields(fields Fields) Logger`: clone the logger,
then assign each provided binding into the clone's (fresh) fields map. -/
def withFields (h : Heap) (l : LoggerObj) (fields : FieldsMap) : Heap × LoggerObj :=
  let hc := clone h l
  let c := hc.2
  let merged := mapSetAll (hc.1.maps.getD c.fieldsRef []) fields
  (⟨hc.1.maps.set c.fieldsRef merged⟩, c)

/-- The five severity levels of the `Logger` interface. -/
inductive Level where
  | debug
  | info
  | warn
  | error
  | fatal
deriving DecidableEq, Repr

/-- One record handed to the `logrus` backend: the level, the message, and
the merged fields. The backend itself (formatting, level filtering, output)
is external to this repository. -/
structure LogEntry where
  level : Level
  msg : String
  fields : FieldsMap
deriving DecidableEq, Repr

/-- `DefaultErrorKey`: declared in a logger source file outside the provided
sources; modelled as the string "error" (the JSON field name the package
documents for errors). -/
def DefaultErrorKey : String := "error"

/-- `func (l *logger) logWithContext(...)`: merges the logger's own fields
with the call's fields (the call's bindings overwriting on collision) into a
fresh map and hands one entry to the backend. -/
def logWithContext (h : Heap) (l : LoggerObj) (level : Level) (msg : String)
    (fields : FieldsMap) : List LogEntry :=
  [⟨level, msg, mapSetAll (h.maps.getD l.fieldsRef []) fields⟩]

/-- The error-level helper shared by `Error` and `Fatal`: if an error is
present, assign it under `DefaultErrorKey` before logging. -/
def fieldsWithErr (e : Option GoErr) (fields : FieldsMap) : FieldsMap :=
  match e with
  | some e => mapSet fields DefaultErrorKey (FVal.err e)
  | none => fields

/-- The two implementations of the `Logger` interface in `logger.go`:
`logger` (the real one, holding a struct on the heap) and `noopLogger`. -/
inductive LoggerImpl where
  | real : LoggerObj → LoggerImpl
  | noop : LoggerImpl
deriving DecidableEq, Repr

/-- `WithFields` through the interface: the real logger derives a clone with
the extra fields; `noopLogger.WithFields` returns the receiver itself. -/
def withFieldsImpl : Heap → LoggerImpl → FieldsMap → Heap × LoggerImpl
  | h, LoggerImpl.real l, fs =>
    let r := withFields h l fs
    (r.1, LoggerImpl.real r.2)
  | h, LoggerImpl.noop, _ => (h, LoggerImpl.noop)

/-- `Debug` through the interface; the noop implementation discards the
message (emits nothing). -/
def debugImpl : Heap → LoggerImpl → String → FieldsMap → List LogEntry
  | h, LoggerImpl.real l, msg, fs => logWithContext h l Level.debug msg fs
  | _, LoggerImpl.noop, _, _ => []

/-- `Info` through the interface. -/
def infoImpl : Heap → LoggerImpl → String → FieldsMap → List LogEntry
  | h, LoggerImpl.real l, msg, fs => logWithContext h l Level.info msg fs
  | _, LoggerImpl.noop, _, _ => []

/-- `Warn` through the interface. -/
def warnImpl : Heap → LoggerImpl → String → FieldsMap → List LogEntry
  | h, LoggerImpl.real l, msg, fs => logWithContext h l Level.warn msg fs
  | _, LoggerImpl.noop, _, _ => []

/-- `Error` through the interface. -/
def errorImpl : Heap → LoggerImpl → String → Option GoErr → FieldsMap → List LogEntry
  | h, LoggerImpl.real l, msg, e, fs => logWithContext h l Level.error msg (fieldsWithErr e fs)
  | _, LoggerImpl.noop, _, _, _ => []

/-- `Fatal` through the interface. -/
def fatalImpl : Heap → LoggerImpl → String → Option GoErr → FieldsMap → List LogEntry
  | h, LoggerImpl.real l, msg, e, fs => logWithContext h l Level.fatal msg (fieldsWithErr e fs)
  | _, LoggerImpl.noop, _, _, _ => []

/-- `func NewNoopLogger() Logger { return &noopLogger{} }`. -/
def NewNoopLogger : LoggerImpl := LoggerImpl.noop

end Logger

namespace LocalCache

theorem findEntry_eraseKey_self {T : Type} (s : Store T) (k : String) :
    findEntry (eraseKey s k) k = none := by
  induction s with
  | nil => rfl
  | cons p rest ih =>
    by_cases h : p.1 = k
    · simp [eraseKey, h, ih]
    · simp [findEntry, eraseKey, h, ih]

theorem findEntry_eraseKey_ne {T : Type} (s : Store T) {k k' : String} (h : k' ≠ k) :
    findEntry (eraseKey s k) k' = findEntry s k' := by
  induction s with
  | nil => rfl
  | cons p rest ih =>
    by_cases hp : p.1 = k
    · have : p.1 ≠ k' := by
        intro hk; exact h (hk ▸ hp)
      simp [eraseKey, findEntry, hp, this, ih, Ne.symm h]
    · by_cases hp' : p.1 = k'
      · simp [eraseKey, findEntry, hp, hp', h]
      · simp [eraseKey, findEntry, hp, hp', ih]

theorem findEntry_put_self {T : Type} (s : Store T) (key : String) (v : T) (ttl now : Nat) :
    findEntry (put s key v ttl now) key = some ⟨v, now + ttl⟩ := by
  simp [put, findEntry]

theorem lookup_put_self {T : Type} (s : Store T) (key : String) (v : T) (ttl now t : Nat)
    (h : t < now + ttl) : lookup (put s key v ttl now) key t = some v := by
  simp [lookup, findEntry_put_self, h]

theorem lookup_eq_none_of_findEntry_eq_none {T : Type} {s : Store T} {key : String} {now : Nat}
    (h : findEntry s key = none) : lookup s key now = none := by
  simp [lookup, h]

theorem eraseKey_sublist {T : Type} (s : Store T) (k : String) :
    List.Sublist (eraseKey s k) s := by
  induction s with
  | nil => simp [eraseKey]
  | cons p rest ih =>
    by_cases hp : p.1 = k
    · rw [eraseKey, if_pos hp]
      exact ih.cons p
    · rw [eraseKey, if_neg hp]
      exact ih.cons₂ p

theorem not_mem_keys_eraseKey_self {T : Type} (s : Store T) (k : String) :
    k ∉ (eraseKey s k).map Prod.fst := by
  induction s with
  | nil => simp [eraseKey]
  | cons p rest ih =>
    by_cases hp : p.1 = k
    · rw [eraseKey, if_pos hp]
      exact ih
    · rw [eraseKey, if_neg hp, List.map_cons]
      intro hm
      rcases List.mem_cons.mp hm with h | h
      · exact hp h.symm
      · exact ih h

theorem keysNodup_eraseKey {T : Type} {s : Store T} (h : keysNodup s) (k : String) :
    keysNodup (eraseKey s k) :=
  List.Nodup.sublist (List.Sublist.map Prod.fst (eraseKey_sublist s k)) h

theorem keysNodup_put {T : Type} {s : Store T} (h : keysNodup s) (key : String) (v : T)
    (ttl now : Nat) : keysNodup (put s key v ttl now) := by
  rw [keysNodup, put, List.map_cons, List.nodup_cons]
  exact ⟨not_mem_keys_eraseKey_self s key, keysNodup_eraseKey h key⟩

theorem reachable_keysNodup {T : Type} {s : Store T} (h : Reachable s) : keysNodup s := by
  induction h with
  | empty => simp [keysNodup]
  | set s key v ttl now _ ih => exact keysNodup_put ih key v ttl now
  | get s key init now _ ih =>
    cases hl : lookup s key now with
    | some v => simpa [get, hl] using ih
    | none =>
      cases init with
      | none => simpa [get, hl] using ih
      | some r =>
        cases r with
        | error e => simpa [get, hl] using ih
        | ok p => simpa [get, hl] using keysNodup_put ih key p.1 p.2 now
  | invalidate s key _ ih => exact keysNodup_eraseKey ih key
  | invalidateAll s _ => simp [invalidateAll, keysNodup]

/-- C2: for a key that was never set (no entry physically stored for it),
`Get(key, nil)` fails with the `ErrCacheMiss` sentinel and leaves the store
untouched; and `ErrCacheMiss` is a distinguished, identity-comparable error
value, distinct from every other error, so callers can branch on it. -/
theorem get_never_set_cache_miss {T : Type} (s : Store T) (key : String) (now : Nat)
    (h : findEntry s key = none) :
    get s key none now = (Except.error ErrCacheMiss, s) ∧
    ∀ n : Nat, ErrCacheMiss ≠ GoErr.custom n := by
  constructor
  · simp [get, lookup_eq_none_of_findEntry_eq_none h]
  · intro n hc
    simp [ErrCacheMiss] at hc

/-- Witness for C2 at a concrete input: a store holding only `"other"` has
no entry for `"missing"`, and `Get("missing", nil)` returns `ErrCacheMiss`. -/
theorem get_never_set_cache_miss_witness :
    findEntry [("other", (⟨1, 10⟩ : Entry Nat))] "missing" = none ∧
    get [("other", (⟨1, 10⟩ : Entry Nat))] "missing" none 0 =
      (Except.error ErrCacheMiss, [("other", (⟨1, 10⟩ : Entry Nat))]) :=
  ⟨by decide, (get_never_set_cache_miss [("other", (⟨1, 10⟩ : Entry Nat))] "missing" 0
      (by decide)).1⟩

/-- C3: for every key, value and positive ttl, `Set(key, v, ttl)` followed by
`Get(key, nil)` at any time `t` from the write up to strictly before the ttl
has elapsed returns `(v, nil)` and does not change the store. -/
theorem set_then_get_before_ttl {T : Type} (s : Store T) (key : String) (v : T)
    (ttl now t : Nat) (_hpos : 0 < ttl) (_hle : now ≤ t) (hlt : t < now + ttl) :
    get (set s key v ttl now) key none t = (Except.ok v, set s key v ttl now) := by
  simp [get, set, lookup_put_self s key v ttl now t hlt]

/-- Witness for C3 at a concrete input: `Set("k", 42, 60)` at time 0 then
`Get("k", nil)` at time 59 returns `(42, nil)`. -/
theorem set_then_get_before_ttl_witness :
    0 < 60 ∧ 0 ≤ 59 ∧ 59 < 0 + 60 ∧
    get (set ([] : Store Nat) "k" 42 60 0) "k" none 59 =
      (Except.ok 42, set ([] : Store Nat) "k" 42 60 0) :=
  ⟨by decide, by decide, by decide,
    set_then_get_before_ttl ([] : Store Nat) "k" 42 60 0 59 (by decide) (by decide) (by decide)⟩

/-- C4: a read hits exactly when an entry is physically present and its
expiry is strictly after the current time; and once expired, `Get(key, nil)`
reports the same `ErrCacheMiss` (with the same untouched store) as for a key
that is physically absent — expiry and absence are indistinguishable. -/
theorem lookup_hit_iff_unexpired_and_expiry_indistinguishable {T : Type} (s : Store T)
    (key : String) (now : Nat) :
    (∀ v : T, lookup s key now = some v ↔
      ∃ e : Entry T, findEntry s key = some e ∧ e.value = v ∧ now < e.expiresAt) ∧
    (∀ e : Entry T, findEntry s key = some e → e.expiresAt ≤ now →
      get s key none now = (Except.error ErrCacheMiss, s)) ∧
    (findEntry s key = none →
      get s key none now = (Except.error ErrCacheMiss, s)) := by
  refine ⟨?_, ?_, ?_⟩
  · intro v
    cases hfe : findEntry s key with
    | none => simp [lookup, hfe]
    | some e =>
      by_cases hexp : now < e.expiresAt
      · simp only [lookup, hfe, if_pos hexp, Option.some_inj]
        constructor
        · intro hv; exact ⟨e, rfl, hv, hexp⟩
        · rintro ⟨e', he', hv, _⟩
          cases he'
          exact hv
      · simp only [lookup, hfe, if_neg hexp]
        constructor
        · intro hc; cases hc
        · rintro ⟨e', he', _, hlt⟩
          cases Option.some_inj.mp he'
          exact absurd hlt hexp
  · intro e hfe hexp
    have hl : lookup s key now = none := by
      simp [lookup, hfe, Nat.not_lt.mpr hexp]
    simp [get, hl]
  · intro hfe
    simp [get, lookup_eq_none_of_findEntry_eq_none hfe]

/-- Witness for C4 at a concrete input: at time 5 an entry that expired at
time 5 yields the same `ErrCacheMiss` answer as an absent key. -/
theorem lookup_hit_iff_unexpired_and_expiry_indistinguishable_witness :
    findEntry [("k", (⟨7, 5⟩ : Entry Nat))] "k" = some ⟨7, 5⟩ ∧
    (⟨7, 5⟩ : Entry Nat).expiresAt ≤ 5 ∧
    get [("k", (⟨7, 5⟩ : Entry Nat))] "k" none 5 =
      (Except.error ErrCacheMiss, [("k", (⟨7, 5⟩ : Entry Nat))]) :=
  ⟨by decide, by decide,
    (lookup_hit_iff_unexpired_and_expiry_indistinguishable [("k", (⟨7, 5⟩ : Entry Nat))] "k"
        5).2.1 ⟨7, 5⟩ (by decide) (by decide)⟩

/-- C5: when the key is uncached and the initializer fails, `Get` returns
that error verbatim and the store for the key (indeed the whole store) is
exactly as before — no negative caching; a following `Get` with a succeeding
initializer on the same store runs it, returns its value, stores it via
`put`, and (for a positive ttl) the stored value is immediately readable. -/
theorem get_initializer_error_no_negative_caching {T : Type} (s : Store T) (key : String)
    (e : GoErr) (now : Nat) (hmiss : lookup s key now = none) :
    get s key (some (Except.error e)) now = (Except.error e, s) ∧
    ∀ (v : T) (ttl : Nat),
      get s key (some (Except.ok (v, ttl))) now = (Except.ok v, put s key v ttl now) ∧
      (0 < ttl → lookup (put s key v ttl now) key now = some v) := by
  refine ⟨by simp [get, hmiss], fun v ttl => ⟨by simp [get, hmiss], fun hpos => ?_⟩⟩
  exact lookup_put_self s key v ttl now now (Nat.lt_add_of_pos_right hpos)

/-- Witness for C5 at a concrete input: on the empty store, a failing
initializer's error is returned verbatim with the store unchanged, and a
succeeding retry stores 42 readably. -/
theorem get_initializer_error_no_negative_caching_witness :
    lookup ([] : Store Nat) "k" 0 = none ∧
    get ([] : Store Nat) "k" (some (Except.error (GoErr.custom 3))) 0 =
      (Except.error (GoErr.custom 3), []) ∧
    get ([] : Store Nat) "k" (some (Except.ok (42, 60))) 0 =
      (Except.ok 42, put ([] : Store Nat) "k" 42 60 0) ∧
    lookup (put ([] : Store Nat) "k" 42 60 0) "k" 0 = some 42 := by
  have h := get_initializer_error_no_negative_caching ([] : Store Nat) "k" (GoErr.custom 3) 0
    (by decide)
  exact ⟨by decide, h.1, (h.2 42 60).1, (h.2 42 60).2 (by decide)⟩

/-- C6: `Invalidate(key)` reports no error on any store — whether or not an
entry for the key exists — and afterwards `Get(key, nil)` fails with
`ErrCacheMiss`. -/
theorem invalidate_no_error_then_miss {T : Type} (s : Store T) (key : String) (now : Nat) :
    (invalidate s key).1 = none ∧
    get (invalidate s key).2 key none now =
      (Except.error ErrCacheMiss, (invalidate s key).2) := by
  refine ⟨rfl, ?_⟩
  have h : findEntry (eraseKey s key) key = none := findEntry_eraseKey_self s key
  simp [invalidate, get, lookup_eq_none_of_findEntry_eq_none h]

/-- C7: `InvalidateAll()` reports no error and clears the entire store:
afterwards `Get(key, nil)` fails with `ErrCacheMiss` for every key — in
particular for every previously set key. -/
theorem invalidateAll_no_error_clears {T : Type} (s : Store T) (key : String) (now : Nat) :
    (invalidateAll s).1 = none ∧
    get (invalidateAll s).2 key none now = (Except.error ErrCacheMiss, []) :=
  ⟨rfl, rfl⟩

/-- C8: every store reachable through the façade holds at most one entry per
key (its keys are pairwise distinct), and `Set(key, v, ttl)` fully replaces
any prior entry for `key` — the physically stored entry afterwards is
exactly `{v, now + ttl}`, whatever (valid, expired or absent) entry was
there before. -/
theorem store_at_most_one_entry_and_set_replaces {T : Type} :
    (∀ s : Store T, Reachable s → keysNodup s) ∧
    (∀ (s : Store T) (key : String) (v : T) (ttl now : Nat),
      findEntry (set s key v ttl now) key = some ⟨v, now + ttl⟩) :=
  ⟨fun _ h => reachable_keysNodup h,
   fun s key v ttl now => findEntry_put_self s key v ttl now⟩

/-- Witness for C8 at a concrete input: the store reached by one `Set` on a
fresh cache has pairwise-distinct keys, and a second `Set` to the same key
replaces the entry entirely. -/
theorem store_at_most_one_entry_and_set_replaces_witness :
    keysNodup [("k", (⟨42, 60⟩ : Entry Nat))] ∧
    findEntry (set [("k", (⟨42, 60⟩ : Entry Nat))] "k" 7 10 100) "k" = some ⟨7, 110⟩ := by
  have hreach : Reachable [("k", (⟨42, 60⟩ : Entry Nat))] :=
    Reachable.set [] "k" 42 60 0 Reachable.empty
  exact ⟨store_at_most_one_entry_and_set_replaces.1 _ hreach,
    store_at_most_one_entry_and_set_replaces.2 [("k", (⟨42, 60⟩ : Entry Nat))] "k" 7 10 100⟩

namespace Singleflight

theorem card_swap {α : Type} [DecidableEq α] {s : Multiset α} {a : α} (h : a ∈ s) (b : α) :
    Multiset.card (b ::ₘ s.erase a) = Multiset.card s := by
  rw [Multiset.card_cons, Multiset.card_erase_add_one h]

theorem inv_init {T : Type} [DecidableEq T] (cfg : Config T) (v : T) (n : Nat)
    (store0 : Store T) (hmiss : lookup store0 cfg.key cfg.now = none) :
    Inv cfg v n (initState n store0) := by
  refine ⟨by simp [initState], Or.inl ⟨rfl, rfl, rfl, hmiss, ?_⟩⟩
  intro p hp
  exact Multiset.eq_of_mem_replicate hp

theorem inv_step {T : Type} [DecidableEq T] {cfg : Config T} {v : T} {ttl n : Nat}
    {s s' : SFState T} (hres : cfg.res = Except.ok (v, ttl)) (httl : 0 < ttl)
    (hinv : Inv cfg v n s) (hstep : Step cfg s s') : Inv cfg v n s' := by
  obtain ⟨hcard, hABC⟩ := hinv
  cases hstep with
  | hit v0 hmem hlook =>
    rcases hABC with ⟨_, _, _, hl, _⟩ | ⟨_, _, _, hl, _, _⟩ | ⟨hf, hp, hc, hl, hall⟩
    · cases hl.symm.trans hlook
    · cases hl.symm.trans hlook
    · have hv0 : v0 = v := (Option.some_inj.mp (hl.symm.trans hlook)).symm
      subst hv0
      refine ⟨?_, Or.inr (Or.inr ⟨hf, hp, hc, hl, ?_⟩)⟩
      · show Multiset.card (Phase.done (Except.ok v0) ::ₘ s.callers.erase Phase.start) = n
        rw [card_swap hmem]
        exact hcard
      · intro p hpmem
        rcases Multiset.mem_cons.mp hpmem with rfl | hpmem
        · exact Or.inr (Or.inr rfl)
        · exact hall p (Multiset.mem_of_mem_erase hpmem)
  | lead hmem hlook hflight =>
    rcases hABC with ⟨hf, hp, hc, hl, hall⟩ | ⟨hf, _, _, _, _, _⟩ | ⟨_, _, _, hl, _⟩
    · have hnol : Multiset.count Phase.leader (s.callers.erase Phase.start) = 0 :=
        Multiset.count_eq_zero.2 (fun hm => by
          cases hall _ (Multiset.mem_of_mem_erase hm))
      refine ⟨?_, Or.inr (Or.inl ⟨rfl, hp, hc, hl, ?_, ?_⟩)⟩
      · show Multiset.card (Phase.leader ::ₘ s.callers.erase Phase.start) = n
        rw [card_swap hmem]
        exact hcard
      · show Multiset.count Phase.leader (Phase.leader ::ₘ s.callers.erase Phase.start) = 1
        rw [Multiset.count_cons_self, hnol]
      · intro p hpmem
        rcases Multiset.mem_cons.mp hpmem with rfl | hpmem
        · exact Or.inr (Or.inl rfl)
        · exact Or.inl (hall p (Multiset.mem_of_mem_erase hpmem))
    · cases hf.symm.trans hflight
    · cases hl.symm.trans hlook
  | follow hmem hlook hflight =>
    rcases hABC with ⟨hf, _, _, _, _⟩ | ⟨hf, hp, hc, hl, hcnt, hall⟩ | ⟨_, _, _, hl, _⟩
    · cases hf.symm.trans hflight
    · refine ⟨?_, Or.inr (Or.inl ⟨hf, hp, hc, hl, ?_, ?_⟩)⟩
      · show Multiset.card (Phase.follower ::ₘ s.callers.erase Phase.start) = n
        rw [card_swap hmem]
        exact hcard
      · show Multiset.count Phase.leader (Phase.follower ::ₘ s.callers.erase Phase.start) = 1
        rw [Multiset.count_cons_of_ne (fun h => Phase.noConfusion h),
          Multiset.count_erase_of_ne (fun h => Phase.noConfusion h)]
        exact hcnt
      · intro p hpmem
        rcases Multiset.mem_cons.mp hpmem with rfl | hpmem
        · exact Or.inr (Or.inr rfl)
        · exact hall p (Multiset.mem_of_mem_erase hpmem)
    · cases hl.symm.trans hlook
  | runOk v0 ttl0 hmem hr =>
    have hinj := hres.symm.trans hr
    injection hinj with hinj
    cases hinj
    rcases hABC with ⟨_, _, _, _, hall⟩ | ⟨hf, hp, hc, hl, hcnt, hall⟩ | ⟨_, _, _, _, hall⟩
    · cases hall _ hmem
    · have hnol : Phase.leader ∉ s.callers.erase (Phase.leader : Phase T) := by
        rw [← Multiset.count_eq_zero, Multiset.count_erase_self, hcnt]
      refine ⟨?_, Or.inr (Or.inr ⟨rfl, rfl, ?_, ?_, ?_⟩)⟩
      · show Multiset.card (Phase.done (Except.ok v) ::ₘ s.callers.erase Phase.leader) = n
        rw [card_swap hmem]
        exact hcard
      · show s.initCount + 1 = 1
        rw [hc]
      · show lookup (put s.store cfg.key v ttl cfg.now) cfg.key cfg.now = some v
        exact lookup_put_self s.store cfg.key v ttl cfg.now cfg.now
          (Nat.lt_add_of_pos_right httl)
      · intro p hpmem
        rcases Multiset.mem_cons.mp hpmem with rfl | hpmem
        · exact Or.inr (Or.inr rfl)
        · rcases hall p (Multiset.mem_of_mem_erase hpmem) with rfl | rfl | rfl
          · exact Or.inl rfl
          · exact absurd hpmem hnol
          · exact Or.inr (Or.inl rfl)
    · rcases hall _ hmem with h | h | h <;> cases h
  | runErr e hmem hr =>
    rw [hres] at hr
    cases hr
  | waitDone r hmem hpub =>
    rcases hABC with ⟨_, hp, _, _, _⟩ | ⟨_, hp, _, _, _, _⟩ | ⟨hf, hp, hc, hl, hall⟩
    · cases hp.symm.trans hpub
    · cases hp.symm.trans hpub
    · have hr : r = Except.ok v := (Option.some_inj.mp (hp.symm.trans hpub)).symm
      subst hr
      refine ⟨?_, Or.inr (Or.inr ⟨hf, hp, hc, hl, ?_⟩)⟩
      · show Multiset.card (Phase.done (Except.ok v) ::ₘ s.callers.erase Phase.follower) = n
        rw [card_swap hmem]
        exact hcard
      · intro p hpmem
        rcases Multiset.mem_cons.mp hpmem with rfl | hpmem
        · exact Or.inr (Or.inr rfl)
        · exact hall p (Multiset.mem_of_mem_erase hpmem)

theorem inv_reaches {T : Type} [DecidableEq T] {cfg : Config T} {v : T} {ttl n : Nat}
    {s s' : SFState T} (hres : cfg.res = Except.ok (v, ttl)) (httl : 0 < ttl)
    (hinv : Inv cfg v n s) (hreach : Reaches cfg s s') : Inv cfg v n s' := by
  induction hreach with
  | refl => exact hinv
  | tail _ hstep ih => exact inv_step hres httl ih hstep

/-- C1: when `n > 0` concurrent `Get(key, init)` callers race on an uncached
key with a shared initializer that succeeds with value `v` and a positive
ttl, then in every interleaving of the coordination protocol in which all
callers have finished, the initializer was invoked exactly once and every
caller returned the identical value `v` (with a nil error). -/
theorem get_concurrent_initializer_exactly_once {T : Type} [DecidableEq T]
    (cfg : Config T) (n : Nat) (store0 : Store T) (v : T) (ttl : Nat) (s : SFState T)
    (hn : 0 < n) (hres : cfg.res = Except.ok (v, ttl)) (httl : 0 < ttl)
    (hmiss : lookup store0 cfg.key cfg.now = none)
    (hreach : Reaches cfg (initState n store0) s)
    (hdone : ∀ p ∈ s.callers, ∃ r, p = Phase.done r) :
    s.initCount = 1 ∧ ∀ p ∈ s.callers, p = Phase.done (Except.ok v) := by
  have hinv := inv_reaches hres httl (inv_init cfg v n store0 hmiss) hreach
  obtain ⟨hcard, hABC⟩ := hinv
  rcases hABC with ⟨_, _, _, _, hall⟩ | ⟨_, _, _, _, hcnt, _⟩ | ⟨_, _, hc, _, hall⟩
  · have hpos : 0 < Multiset.card s.callers := by
      rw [hcard]
      exact hn
    obtain ⟨p, hpmem⟩ := Multiset.card_pos_iff_exists_mem.mp hpos
    obtain ⟨r, hr⟩ := hdone p hpmem
    rw [hall p hpmem] at hr
    cases hr
  · have hmem : Phase.leader ∈ s.callers := Multiset.count_pos.mp (by
      rw [hcnt]
      exact Nat.one_pos)
    obtain ⟨r, hr⟩ := hdone _ hmem
    cases hr
  · refine ⟨hc, fun p hpmem => ?_⟩
    rcases hall p hpmem with rfl | rfl | rfl
    · obtain ⟨r, hr⟩ := hdone _ hpmem
      cases hr
    · obtain ⟨r, hr⟩ := hdone _ hpmem
      cases hr
    · rfl

/-- Witness for C1 at a concrete input: two callers race on key `"k"` of an
empty cache with a shared initializer succeeding with `(42, 60)`; in the
interleaving lead-follow-run-wait both finish with `(42, nil)` and the
initializer ran once. -/
theorem get_concurrent_initializer_exactly_once_witness :
    lookup ([] : Store Nat) "k" 0 = none ∧
    ({ callers := Phase.done (Except.ok 42) ::ₘ Phase.done (Except.ok 42) ::ₘ 0,
       flight := false,
       published := some (Except.ok 42),
       store := put ([] : Store Nat) "k" 42 60 0,
       initCount := 1 } : SFState Nat).initCount = 1 ∧
    ∀ p : Phase Nat,
      p ∈ ({ callers := Phase.done (Except.ok 42) ::ₘ Phase.done (Except.ok 42) ::ₘ 0, flight := false, published := some (Except.ok 42), store := put ([] : Store Nat) "k" 42 60 0, initCount := 1 } : SFState Nat).callers → p = Phase.done (Except.ok 42) := by
  refine ⟨rfl, get_concurrent_initializer_exactly_once (⟨"k", Except.ok (42, 60), 0⟩ : Config Nat)
    2 [] 42 60 _ (by decide) rfl (by decide) rfl ?hreach ?hdone⟩
  case hreach =>
    exact Relation.ReflTransGen.head (Step.lead _ (by decide) rfl rfl)
      (Relation.ReflTransGen.head (Step.follow _ (by decide) rfl rfl)
        (Relation.ReflTransGen.head (Step.runOk _ 42 60 (by decide) rfl)
          (Relation.ReflTransGen.head (Step.waitDone _ (Except.ok 42) (by decide) rfl)
            Relation.ReflTransGen.refl)))
  case hdone =>
    intro p hp
    have hp1 : p ∈ (Phase.done (Except.ok 42) ::ₘ Phase.done (Except.ok 42) ::ₘ
        (0 : Multiset (Phase Nat))) := hp
    rcases Multiset.mem_cons.mp hp1 with rfl | hp2
    · exact ⟨Except.ok 42, rfl⟩
    · rcases Multiset.mem_cons.mp hp2 with rfl | hp3
      · exact ⟨Except.ok 42, rfl⟩
      · exact absurd hp3 (Multiset.not_mem_zero p)

end Singleflight

end LocalCache

namespace Logger

theorem mapGet_mapErase_ne {m : FieldsMap} {k k' : String} (h : k' ≠ k) :
    mapGet (mapErase m k) k' = mapGet m k' := by
  induction m with
  | nil => rfl
  | cons p rest ih =>
    by_cases hp : p.1 = k
    · have hne : p.1 ≠ k' := fun hk => h (hk ▸ hp)
      simp [mapErase, mapGet, hp, hne, ih, Ne.symm h]
    · by_cases hp' : p.1 = k'
      · simp [mapErase, mapGet, hp, hp', h]
      · simp [mapErase, mapGet, hp, hp', ih]

theorem mapGet_mapSet_self (m : FieldsMap) (k : String) (v : FVal) :
    mapGet (mapSet m k v) k = some v := by
  simp [mapSet, mapGet]

theorem mapGet_mapSet_ne (m : FieldsMap) {k k' : String} (v : FVal) (h : k' ≠ k) :
    mapGet (mapSet m k v) k' = mapGet m k' := by
  rw [mapSet, mapGet, if_neg (fun hk => h hk.symm)]
  exact mapGet_mapErase_ne h

theorem mapGet_eq_none_of_not_mem_keys {fs : FieldsMap} {k : String}
    (h : k ∉ fs.map Prod.fst) : mapGet fs k = none := by
  induction fs with
  | nil => rfl
  | cons p rest ih =>
    simp only [List.map_cons, List.mem_cons, not_or] at h
    rw [mapGet, if_neg (fun hk => h.1 hk.symm)]
    exact ih h.2

theorem mapGet_mapSetAll_of_none {fs : FieldsMap} {k : String} (base : FieldsMap)
    (h : mapGet fs k = none) : mapGet (mapSetAll base fs) k = mapGet base k := by
  induction fs generalizing base with
  | nil => rfl
  | cons p rest ih =>
    rw [mapGet] at h
    by_cases hp : p.1 = k
    · rw [if_pos hp] at h
      cases h
    · rw [if_neg hp] at h
      show mapGet (mapSetAll (mapSet base p.1 p.2) rest) k = mapGet base k
      rw [ih _ h, mapGet_mapSet_ne _ _ (fun hk => hp hk.symm)]

theorem mapGet_mapSetAll_of_some {fs : FieldsMap} {k : String} {v : FVal} (base : FieldsMap)
    (hnodup : (fs.map Prod.fst).Nodup) (h : mapGet fs k = some v) :
    mapGet (mapSetAll base fs) k = some v := by
  induction fs generalizing base with
  | nil => cases h
  | cons p rest ih =>
    rw [List.map_cons, List.nodup_cons] at hnodup
    rw [mapGet] at h
    by_cases hp : p.1 = k
    · rw [if_pos hp] at h
      cases h
      subst hp
      have hrest : mapGet rest p.1 = none := mapGet_eq_none_of_not_mem_keys hnodup.1
      show mapGet (mapSetAll (mapSet base p.1 p.2) rest) p.1 = some p.2
      rw [mapGet_mapSetAll_of_none _ hrest, mapGet_mapSet_self]
    · rw [if_neg hp] at h
      exact ih (mapSet base p.1 p.2) hnodup.2 h

theorem set_concat_length {α : Type} (l : List α) (a b : α) :
    (l ++ [a]).set l.length b = l ++ [b] := by
  induction l with
  | nil => rfl
  | cons x xs ih => simp [List.set, ih]

theorem getD_concat_length {α : Type} (l : List α) (a d : α) :
    (l ++ [a]).getD l.length d = a := by
  rw [List.getD_eq_getElem?_getD, List.getElem?_concat_length]
  rfl

/-- `withFields` in heap form: the post-heap is the old heap with one fresh
map appended, holding the receiver's fields overwritten by the provided
bindings; the derived logger points at that fresh map. -/
theorem withFields_heap_eq (h : Heap) (l : LoggerObj) (fields : FieldsMap) :
    withFields h l fields =
      (⟨h.maps ++ [mapSetAll (h.maps.getD l.fieldsRef []) fields]⟩,
       { l with fieldsRef := h.maps.length }) := by
  show (⟨(h.maps ++ [h.maps.getD l.fieldsRef []]).set h.maps.length
      (mapSetAll ((h.maps ++ [h.maps.getD l.fieldsRef []]).getD h.maps.length []) fields)⟩,
    ({ l with fieldsRef := h.maps.length } : LoggerObj)) =
      ((⟨h.maps ++ [mapSetAll (h.maps.getD l.fieldsRef []) fields]⟩ : Heap),
       { l with fieldsRef := h.maps.length })
  rw [getD_concat_length, set_concat_length]

theorem withFields_derived_map (h : Heap) (l : LoggerObj) (fields : FieldsMap) :
    (withFields h l fields).1.maps[(withFields h l fields).2.fieldsRef]? =
      some (mapSetAll (h.maps.getD l.fieldsRef []) fields) := by
  rw [withFields_heap_eq]
  exact List.getElem?_concat_length _ _

/-- C9: the `Logger` interface exposes `WithFields`, returning a derived
logger whose (fresh) fields map carries every provided binding, plus the
level-specific calls `Debug`/`Info`/`Warn`/`Error`/`Fatal`, each handing the
backend one entry at its level with the merged fields (`Error`/`Fatal` with
the error attached); and `NewNoopLogger` provides an implementation that
discards all log messages at every level and derives itself. -/
theorem logger_withFields_levels_and_noop (h : Heap) (l : LoggerObj) (msg : String)
    (fields : FieldsMap) (e : GoErr) :
    (withFieldsImpl h NewNoopLogger fields = (h, NewNoopLogger) ∧
      debugImpl h NewNoopLogger msg fields = [] ∧
      infoImpl h NewNoopLogger msg fields = [] ∧
      warnImpl h NewNoopLogger msg fields = [] ∧
      errorImpl h NewNoopLogger msg (some e) fields = [] ∧
      fatalImpl h NewNoopLogger msg (some e) fields = []) ∧
    ((withFieldsImpl h (LoggerImpl.real l) fields).1.maps[
        (withFields h l fields).2.fieldsRef]? =
       some (mapSetAll (h.maps.getD l.fieldsRef []) fields) ∧
      ((fields.map Prod.fst).Nodup → ∀ (k : String) (v : FVal), mapGet fields k = some v →
        mapGet (mapSetAll (h.maps.getD l.fieldsRef []) fields) k = some v)) ∧
    (debugImpl h (LoggerImpl.real l) msg fields =
        [⟨Level.debug, msg, mapSetAll (h.maps.getD l.fieldsRef []) fields⟩] ∧
      infoImpl h (LoggerImpl.real l) msg fields =
        [⟨Level.info, msg, mapSetAll (h.maps.getD l.fieldsRef []) fields⟩] ∧
      warnImpl h (LoggerImpl.real l) msg fields =
        [⟨Level.warn, msg, mapSetAll (h.maps.getD l.fieldsRef []) fields⟩] ∧
      errorImpl h (LoggerImpl.real l) msg (some e) fields =
        [⟨Level.error, msg,
          mapSetAll (h.maps.getD l.fieldsRef []) (fieldsWithErr (some e) fields)⟩] ∧
      fatalImpl h (LoggerImpl.real l) msg (some e) fields =
        [⟨Level.fatal, msg,
          mapSetAll (h.maps.getD l.fieldsRef []) (fieldsWithErr (some e) fields)⟩]) := by
  refine ⟨⟨rfl, rfl, rfl, rfl, rfl, rfl⟩, ⟨?_, ?_⟩, rfl, rfl, rfl, rfl, rfl⟩
  · exact withFields_derived_map h l fields
  · intro hnodup k v hv
    exact mapGet_mapSetAll_of_some _ hnodup hv

/-- Witness for C9 at a concrete input: on a one-map heap, the derived
logger of `WithFields` carries the provided binding `("b", 3)`. -/
theorem logger_withFields_levels_and_noop_witness :
    ([("b", FVal.int 3)].map Prod.fst).Nodup ∧
    mapGet [("b", FVal.int 3)] "b" = some (FVal.int 3) ∧
    mapGet (mapSetAll ((⟨[[("a", FVal.int 1)]]⟩ : Heap).maps.getD 0 []) [("b", FVal.int 3)])
      "b" = some (FVal.int 3) :=
  ⟨by decide, by decide,
    (logger_withFields_levels_and_noop ⟨[[("a", FVal.int 1)]]⟩ ⟨0, 0, 0⟩ "m"
        [("b", FVal.int 3)] (GoErr.custom 1)).2.1.2 (by decide) "b" (FVal.int 3) (by decide)⟩

/-- C10: `WithFields` deep-copies before merging: the map the receiver's
`fields` reference points at is unchanged on the post-heap, and the derived
logger's map reads as the union of the receiver's fields and the argument,
the argument winning on any colliding key. -/
theorem withFields_frame_and_precedence (h : Heap) (l : LoggerObj) (fields : FieldsMap)
    (hvalid : l.fieldsRef < h.maps.length)
    (hnodup : (fields.map Prod.fst).Nodup) :
    (withFields h l fields).1.maps[l.fieldsRef]? = h.maps[l.fieldsRef]? ∧
    ∀ k : String,
      mapGet ((withFields h l fields).1.maps.getD (withFields h l fields).2.fieldsRef []) k =
        match mapGet fields k with
        | some v => some v
        | none => mapGet (h.maps.getD l.fieldsRef []) k := by
  constructor
  · rw [withFields_heap_eq]
    exact List.getElem?_append_left hvalid
  · intro k
    have hd : (withFields h l fields).1.maps.getD (withFields h l fields).2.fieldsRef [] =
        mapSetAll (h.maps.getD l.fieldsRef []) fields := by
      rw [List.getD_eq_getElem?_getD, withFields_derived_map]
      rfl
    rw [hd]
    cases hk : mapGet fields k with
    | some v => exact mapGet_mapSetAll_of_some _ hnodup hk
    | none => exact mapGet_mapSetAll_of_none _ hk

/-- Witness for C10 at a concrete input: a receiver with fields
`{"a" ↦ 1, "c" ↦ 9}` derived with `{"a" ↦ 2, "b" ↦ 3}` keeps its own map
intact, while the derived map reads `"a" ↦ 2` (argument precedence). -/
theorem withFields_frame_and_precedence_witness :
    (0 : Nat) < 1 ∧
    ([("a", FVal.int 2), ("b", FVal.int 3)].map Prod.fst).Nodup ∧
    (withFields ⟨[[("a", FVal.int 1), ("c", FVal.int 9)]]⟩ ⟨0, 0, 0⟩
        [("a", FVal.int 2), ("b", FVal.int 3)]).1.maps[(0 : Nat)]? =
      (⟨[[("a", FVal.int 1), ("c", FVal.int 9)]]⟩ : Heap).maps[(0 : Nat)]? :=
  ⟨by decide, by decide,
    (withFields_frame_and_precedence ⟨[[("a", FVal.int 1), ("c", FVal.int 9)]]⟩ ⟨0, 0, 0⟩
        [("a", FVal.int 2), ("b", FVal.int 3)] (by decide) (by decide)).1⟩

end Logger

end GoCommon
